import Mathlib

/-!
A shallow embedding of `amz::deferred_reclamation_allocator` (file
`include/amz/deferred_reclamation_allocator.hpp`), the allocator adaptor that
defers object destruction and memory reclamation until a fixed timeout has
elapsed after `deallocate` was called.

Modelling conventions:

* Time points and durations of `std::chrono::steady_clock` are modelled as
  natural numbers.  `timeout_` is stored after the `duration_cast`, so it is
  a plain `Nat` here.
* Pointers (both entry pointers and `DelayBuffer` storage pointers) are
  modelled as abstract identifiers of type `Nat`.
* A `DelayBuffer` is a record holding its storage identifier, its sealing
  `timestamp` and the list of entries actually filled in.  In the C++ code
  the entries live in a trailing array of `buffer_capacity_` slots of which
  the first `current_buffer_size_` are meaningful; the list here is exactly
  that meaningful prefix, so `current_buffer_size_` is the list length.
* Environment interactions are made explicit through oracles: every value
  obtained from `TimeoutClock::now()` is a parameter, and each
  `std::this_thread::sleep_until(d)` is described by a wake function
  `wake : Nat → Nat`.  C++ guarantees only `Clock::now() >= d` when
  `sleep_until(d)` returns, so a valid wake function satisfies `d ≤ wake d`
  (`wakeValid`); equality is realizable.  Clock reads are monotone, which
  appears as `≤` hypotheses relating consecutive reads.
* Operations return, besides the new state, a `Trace` recording which
  buffers had their entries reclaimed (destructor then underlying
  `deallocate`, in order) and at which time, which sleeps were performed,
  and which buffer storages were returned to the byte allocator.  The time
  recorded for a reclamation is the best lower bound the program has on the
  real time at which the destructors run: the cached `now_` on the
  strict-comparison paths, and the wake time of the preceding sleep on the
  sleep paths.  Real executions run the destructors at or after that bound,
  and the bound itself is realizable.
* The C++ `assert`s are modelled as guards: an execution in which an
  assertion fails is reported as `DOut.assertFail` instead of a normal
  return (`DOut.ret`).  An exception that propagates out of `deallocate`
  is reported as `DOut.thrown` together with the events that happened
  before the throw.
-/

namespace DeferredReclamation

/-- A `DelayBufferElement`: the pair `(p, n)` recorded by `deallocate(p, n)`. -/
structure Entry where
  p : Nat
  n : Nat
deriving DecidableEq, Repr

/-- A `DelayBuffer`: storage identifier (the pointer returned by
`buffer_new`), the sealing `timestamp`, and the meaningful prefix of the
trailing `elements` array. -/
structure DelayBuffer where
  id : Nat
  timestamp : Nat
  elems : List Entry
deriving DecidableEq, Repr

/-- Events produced by an operation: `reclaims` records each buffer whose
entries went through `reclaim_buffer_elements` together with the lower bound
on the time at which that happened; `sleeps` records the deadlines passed to
`sleep_until`; `frees` records the storage identifiers passed to
`buffer_delete`. -/
structure Trace where
  reclaims : List (DelayBuffer × Nat)
  sleeps : List Nat
  frees : List Nat
deriving DecidableEq, Repr

def Trace.empty : Trace := ⟨[], [], []⟩

def Trace.append (a b : Trace) : Trace :=
  ⟨a.reclaims ++ b.reclaims, a.sleeps ++ b.sleeps, a.frees ++ b.frees⟩

/-- The entries destroyed (and handed to the underlying `deallocate`) in a
trace. -/
def destroyedEntries (tr : Trace) : List Entry :=
  tr.reclaims.flatMap (fun r => r.1.elems)

/-- The state of a `deferred_reclamation_allocator<Allocator>`.  `α` stands
for the underlying allocator; the adaptor only copies it and compares it for
equality, so it stays abstract.  `nowCache` is the member `now_`;
`currentBuffer` is `current_buffer_` (`none` iff moved-from);
`current_buffer_size_` is the length of the current buffer's `elems`. -/
structure State (α : Type) where
  alloc : α
  timeout : Nat
  capacity : Nat
  nowCache : Nat
  currentBuffer : Option DelayBuffer
  delayList : List DelayBuffer
deriving DecidableEq, Repr

variable {α : Type}

/-- Buffer storage identifiers held by an allocator (current buffer and
delay list). -/
def State.bufIds (s : State α) : List Nat :=
  (match s.currentBuffer with
   | some b => [b.id]
   | none => []) ++ s.delayList.map DelayBuffer.id

/-- The entries currently sitting in the (unsealed) current buffer. -/
def State.currentElems (s : State α) : List Entry :=
  match s.currentBuffer with
  | some b => b.elems
  | none => []

/-- The constructor: record the allocator, the timeout (cast to the clock's
duration), the capacity; read the clock (`tNow`); `buffer_new()` a fresh
current buffer (`freshId`) whose timestamp is default-initialized and whose
fill is 0. -/
def mkAllocator (a : α) (timeout capacity tNow freshId : Nat) : State α :=
  { alloc := a, timeout := timeout, capacity := capacity, nowCache := tNow,
    currentBuffer := some ⟨freshId, 0, []⟩, delayList := [] }

/-- The copy constructor (and the converting copy constructor, which has the
same member-initializer list): copy the allocator, timeout and capacity,
read the clock afresh, start with an empty delay list and a freshly
`buffer_new`-ed current buffer with fill 0. -/
def State.copyCtor (s : State α) (tNow freshId : Nat) : State α :=
  { alloc := s.alloc, timeout := s.timeout, capacity := s.capacity,
    nowCache := tNow, currentBuffer := some ⟨freshId, 0, []⟩, delayList := [] }

/-- The friend `operator==`: `a.timeout_ == b.timeout_ && a.allocator_ ==
b.allocator_`, where `aeq` is the underlying allocator's `operator==`. -/
def State.eqOp (aeq : α → α → Bool) (a b : State α) : Bool :=
  (a.timeout == b.timeout) && aeq a.alloc b.alloc

/-- The friend `operator!=`: `!(a == b)`. -/
def State.neOp (aeq : α → α → Bool) (a b : State α) : Bool :=
  !(State.eqOp aeq a b)

/-- `allocate(n)` forwards to the underlying allocator and leaves the
adaptor state unchanged. -/
def State.allocate (s : State α) (_n : Nat) : State α := s

/-- `construct(p, args...)` forwards to the underlying allocator and leaves
the adaptor state unchanged. -/
def State.construct (s : State α) (_p : Nat) : State α := s

/-- `destroy(p)` does nothing: destruction is deferred to reclamation. -/
def State.destroy (s : State α) (_p : Nat) : State α := s

/-- The body of the `reclaim_full_buffer` lambda inside `purge`:
`reclaim_buffer_elements` over the full buffer followed by `buffer_delete`,
with `t` the lower bound on the time at which the destructors run. -/
def reclaimFullBuffer (b : DelayBuffer) (t : Nat) : Trace :=
  ⟨[(b, t)], [], [b.id]⟩

/-- The loop of `purge(purge_mode::opportunistic)` over the delay list,
after `now_` has been refreshed to `now`: while the head satisfies
`now_ > head.timestamp + timeout_`, reclaim it and free its storage; stop at
the first head that does not. -/
def purgeOppList (timeout now : Nat) : List DelayBuffer → List DelayBuffer × Trace
  | [] => ([], Trace.empty)
  | b :: rest =>
    if now > b.timestamp + timeout then
      let r := purgeOppList timeout now rest
      (r.1, (reclaimFullBuffer b now).append r.2)
    else
      (b :: rest, Trace.empty)

/-- The loop of `purge(purge_mode::exhaustive)` over the delay list, with
the threaded `now_`: an eligible head (`now_ > deadline`) is reclaimed
directly; an ineligible one triggers `sleep_until(deadline)`, is then
reclaimed (the destructors running at the wake time `wake deadline`), and
`now_` is set to `deadline` without re-reading the clock.  The first
component of the result is the final `now_`. -/
def purgeExhList (timeout : Nat) (wake : Nat → Nat) (now : Nat) :
    List DelayBuffer → Nat × List DelayBuffer × Trace
  | [] => (now, [], Trace.empty)
  | b :: rest =>
    let deadline := b.timestamp + timeout
    if now > deadline then
      let r := purgeExhList timeout wake now rest
      (r.1, r.2.1, (reclaimFullBuffer b now).append r.2.2)
    else
      let r := purgeExhList timeout wake deadline rest
      (r.1, r.2.1, (Trace.mk [(b, wake deadline)] [deadline] [b.id]).append r.2.2)

/-- `purge(purge_mode::opportunistic)`: refresh `now_` from the clock
(value `t`) and run the opportunistic loop.  (`purge` asserts
`!was_moved_from()`; the theorems below assume it.) -/
def State.purgeOpp (s : State α) (t : Nat) : State α × Trace :=
  let r := purgeOppList s.timeout t s.delayList
  ({ s with nowCache := t, delayList := r.1 }, r.2)

/-- `purge(purge_mode::exhaustive)`: refresh `now_` from the clock (value
`t`) and run the exhaustive loop with wake function `wake`. -/
def State.purgeExh (s : State α) (t : Nat) (wake : Nat → Nat) : State α × Trace :=
  let r := purgeExhList s.timeout wake t s.delayList
  ({ s with nowCache := r.1, delayList := r.2.1 }, r.2.2)

/-- `purge_delay_list_and_reuse_existing_buffer`, generalized over the
`reuse` accumulator: pop and reclaim heads while `now_ > timestamp +
timeout` (the code stops when `now_ <= timestamp + timeout_`), withholding
the first reclaimed buffer for reuse and `buffer_delete`-ing the others.
The initial call passes `none` for `reuse`. -/
def purgeAndReuse (timeout now : Nat) (reuse : Option DelayBuffer) :
    List DelayBuffer → Option DelayBuffer × List DelayBuffer × Trace
  | [] => (reuse, [], Trace.empty)
  | oldest :: rest =>
    if now ≤ oldest.timestamp + timeout then
      (reuse, oldest :: rest, Trace.empty)
    else
      match reuse with
      | none =>
        let r := purgeAndReuse timeout now (some oldest) rest
        (r.1, r.2.1, (Trace.mk [(oldest, now)] [] []).append r.2.2)
      | some b =>
        let r := purgeAndReuse timeout now (some b) rest
        (r.1, r.2.1, (Trace.mk [(oldest, now)] [] [oldest.id]).append r.2.2)

/-- The outcome of `buffer_new()` inside `deallocate`: success (returning a
fresh storage identifier), `std::bad_alloc`, or any other exception. -/
inductive AllocResult
  | ok (freshId : Nat)
  | badAlloc
  | otherErr
deriving DecidableEq, Repr

/-- The environment values consumed by one `deallocate` call: the clock read
at sealing (`tSeal`), the outcome of `buffer_new()` if it is reached, and
the clock read after the recovery sleep (`tRecover`). -/
structure DeallocOracle where
  tSeal : Nat
  newResult : AllocResult
  tRecover : Nat
deriving DecidableEq, Repr

/-- Validity of a `deallocate` oracle: the clock is monotone (`tSeal` is at
least the cached `now_`, `tRecover` at least `tSeal`) and `sleep_until`
returns only once the clock has reached the target, so `tRecover` is at
least the deadline of the head of the delay list after sealing
(`recoverDeadline`). -/
def recoverDeadline (s : State α) (o : DeallocOracle) : Nat :=
  (match s.delayList with
   | [] => o.tSeal
   | b :: _ => b.timestamp) + s.timeout

def oracleValid (s : State α) (o : DeallocOracle) : Prop :=
  s.nowCache ≤ o.tSeal ∧ o.tSeal ≤ o.tRecover ∧ recoverDeadline s o ≤ o.tRecover

/-- The outcome of a `deallocate` call: a normal return with the new state
and the events, an exception propagating out of the function with the
events that preceded it, or a failed assertion. -/
inductive DOut (α : Type)
  | ret (s : State α) (tr : Trace)
  | thrown (tr : Trace)
  | assertFail
deriving DecidableEq, Repr

/-- The buffer handed to the delay list when `deallocate` seals the current
buffer `cb` after pushing `e`: `now_ = current_buffer_->timestamp =
TimeoutClock::now()`. -/
def sealedBuffer (cb : DelayBuffer) (e : Entry) (t : Nat) : DelayBuffer :=
  { id := cb.id, timestamp := t, elems := cb.elems ++ [e] }

/-- `deallocate(p, n)`: push the entry into the current buffer; if the
buffer becomes full, timestamp it and append it to the delay list, try to
recycle a buffer via the withholding purge, otherwise `buffer_new()`; on
`std::bad_alloc`, sleep until the head's deadline, re-read the clock
(`tRecover`) and rerun the withholding purge.  The asserts
(`!was_moved_from()`, `!current_buffer_full()` on entry,
`!delay_list_.empty()` and `current_buffer_ != nullptr` in the recovery
path) are modelled as guards. -/
def State.deallocate (s : State α) (e : Entry) (o : DeallocOracle) : DOut α :=
  match s.currentBuffer with
  | none => DOut.assertFail
  | some cb =>
    if cb.elems.length = s.capacity then DOut.assertFail
    else
      if cb.elems.length + 1 = s.capacity then
        let sealed := sealedBuffer cb e o.tSeal
        let dl1 := s.delayList ++ [sealed]
        let r := purgeAndReuse s.timeout o.tSeal none dl1
        match r.1 with
        | some reused =>
          DOut.ret { s with nowCache := o.tSeal, delayList := r.2.1,
                            currentBuffer := some { reused with elems := [] } } r.2.2
        | none =>
          match o.newResult with
          | AllocResult.ok freshId =>
            DOut.ret { s with nowCache := o.tSeal, delayList := r.2.1,
                              currentBuffer := some ⟨freshId, 0, []⟩ } r.2.2
          | AllocResult.otherErr => DOut.thrown r.2.2
          | AllocResult.badAlloc =>
            match r.2.1 with
            | [] => DOut.assertFail
            | oldest :: _ =>
              let deadline := oldest.timestamp + s.timeout
              let r2 := purgeAndReuse s.timeout o.tRecover none r.2.1
              let tr := r.2.2.append ((Trace.mk [] [deadline] []).append r2.2.2)
              match r2.1 with
              | some reused =>
                DOut.ret { s with nowCache := o.tRecover, delayList := r2.2.1,
                                  currentBuffer := some { reused with elems := [] } } tr
              | none => DOut.assertFail
      else
        DOut.ret { s with currentBuffer := some { cb with elems := cb.elems ++ [e] } }
                 Trace.empty

/-- The destructor on a non-moved-from allocator: read the clock (`t0`)
and stamp the current buffer, run the exhaustive purge over the delay list
(the `purge` member re-reads the clock at entry, value `t1`), then, if the
current buffer is not empty, sleep until its deadline (the comparison
`now <= ready_to_delete` uses the local `now`, i.e. `t0`) and reclaim its
filled prefix; finally `buffer_delete` the current buffer.  On a
moved-from allocator nothing happens. -/
def State.destructor (s : State α) (t0 t1 : Nat) (wake : Nat → Nat) : Trace :=
  match s.currentBuffer with
  | none => Trace.empty
  | some cb =>
    let cb1 : DelayBuffer := { cb with timestamp := t0 }
    let r := purgeExhList s.timeout wake t1 s.delayList
    let tr2 :=
      if cb1.elems.length ≠ 0 then
        let ready := cb1.timestamp + s.timeout
        if t0 ≤ ready then
          Trace.mk [(cb1, wake ready)] [ready] [cb1.id]
        else
          Trace.mk [(cb1, t0)] [] [cb1.id]
      else
        Trace.mk [] [] [cb1.id]
    r.2.2.append tr2

/-- Validity of a wake function: `sleep_until(d)` returns no earlier than
`d` (and possibly exactly at `d`). -/
def wakeValid (wake : Nat → Nat) : Prop := ∀ d, d ≤ wake d

/-- Byte count requested by `buffer_new`:
`sizeof(DelayBuffer) + buffer_capacity_ * sizeof(DelayBufferElement)`. -/
def bufferNewByteCount (headerSize entrySize capacity : Nat) : Nat :=
  headerSize + capacity * entrySize

/-- Element count passed by `buffer_delete` to the byte allocator:
`buffer_allocator_.deallocate(bytes, buffer_capacity_)`. -/
def bufferDeleteByteCount (capacity : Nat) : Nat := capacity

/-- The admission rule of the purge loops: a head buffer may be reclaimed
exactly when `now_ > timestamp + timeout_` (strict). -/
def eligible (timeout now : Nat) (b : DelayBuffer) : Bool :=
  decide (b.timestamp + timeout < now)

/-- The state invariant claimed by the specification: the current buffer is
non-null with fill in `[0, capacity)`, every buffer on the delay list is
full, and sealing timestamps are non-decreasing from head to tail. -/
def ClaimedInv (s : State α) : Prop :=
  s.currentBuffer.isSome = true
  ∧ (State.currentElems s).length < s.capacity
  ∧ (∀ b ∈ s.delayList, b.elems.length = s.capacity)
  ∧ List.Sorted (· ≤ ·) (s.delayList.map DelayBuffer.timestamp)

/-- Auxiliary delay-list invariant: all buffers full, timestamps sorted,
and all timestamps at most `bound`. -/
def DlInv (capacity bound : Nat) (dl : List DelayBuffer) : Prop :=
  (∀ b ∈ dl, b.elems.length = capacity)
  ∧ List.Sorted (· ≤ ·) (dl.map DelayBuffer.timestamp)
  ∧ ∀ b ∈ dl, b.timestamp ≤ bound

/-- The inductive invariant: the claimed invariant, strengthened with the
constructor precondition `delay_buffer_size >= 1` and the fact that every
delay-list timestamp is at most the cached `now_`. -/
def FullInv (s : State α) : Prop :=
  ClaimedInv s ∧ 1 ≤ s.capacity ∧ DlInv s.capacity s.nowCache s.delayList

/-- The states reachable from a constructor call through the public
operations, with valid environment oracles: `allocate`, `construct` and
`destroy` do not change the adaptor state, `deallocate` steps are those
that return normally, and both purge flavors step with a monotone clock
read. -/
inductive Reach : State α → Prop
  | init (a : α) (timeout capacity tNow freshId : Nat) (hc : 1 ≤ capacity) :
      Reach (mkAllocator a timeout capacity tNow freshId)
  | allocStep {s : State α} (n : Nat) : Reach s → Reach (State.allocate s n)
  | constructStep {s : State α} (p : Nat) : Reach s → Reach (State.construct s p)
  | destroyStep {s : State α} (p : Nat) : Reach s → Reach (State.destroy s p)
  | deallocStep {s s' : State α} {e : Entry} {o : DeallocOracle} {tr : Trace} :
      Reach s → oracleValid s o → State.deallocate s e o = DOut.ret s' tr →
      Reach s'
  | purgeOppStep {s : State α} {t : Nat} : Reach s → s.nowCache ≤ t →
      Reach (State.purgeOpp s t).1
  | purgeExhStep {s : State α} {t : Nat} {wake : Nat → Nat} : Reach s →
      s.nowCache ≤ t → wakeValid wake → Reach (State.purgeExh s t wake).1

theorem Trace.empty_append (a : Trace) : Trace.empty.append a = a := by
  cases a; rfl

theorem Trace.append_empty (a : Trace) : a.append Trace.empty = a := by
  simp [Trace.append, Trace.empty]

/-- The opportunistic purge loop reclaims exactly the maximal eligible
prefix (in order, each stamped with the refreshed `now_`, each freed) and
leaves the remainder of the delay list untouched. -/
theorem purgeOppList_eq (timeout now : Nat) (dl : List DelayBuffer) :
    purgeOppList timeout now dl =
      (dl.dropWhile (eligible timeout now),
       ⟨(dl.takeWhile (eligible timeout now)).map (fun b => (b, now)), [],
        (dl.takeWhile (eligible timeout now)).map DelayBuffer.id⟩) := by
  induction dl with
  | nil => rfl
  | cons b rest ih =>
    by_cases h : b.timestamp + timeout < now
    · simp [purgeOppList, h, ih, reclaimFullBuffer, Trace.append, eligible]
    · simp [purgeOppList, h, eligible, Trace.empty]

/-- The exhaustive purge loop always empties the delay list. -/
theorem purgeExhList_list_nil (timeout : Nat) (wake : Nat → Nat) (now : Nat)
    (dl : List DelayBuffer) : (purgeExhList timeout wake now dl).2.1 = [] := by
  induction dl generalizing now with
  | nil => rfl
  | cons b rest ih =>
    by_cases h : b.timestamp + timeout < now
    · simp [purgeExhList, h, ih]
    · simp [purgeExhList, h, ih]

/-- Every reclamation performed by the exhaustive purge loop is stamped at
or after the buffer's deadline, provided the wake function is valid. -/
theorem purgeExhList_reclaim_le (timeout : Nat) (wake : Nat → Nat)
    (hw : wakeValid wake) (now : Nat) (dl : List DelayBuffer) :
    ∀ x ∈ (purgeExhList timeout wake now dl).2.2.reclaims,
      x.1.timestamp + timeout ≤ x.2 := by
  induction dl generalizing now with
  | nil => intro x hx; simp [purgeExhList, Trace.empty] at hx
  | cons b rest ih =>
    intro x hx
    by_cases h : b.timestamp + timeout < now
    · simp [purgeExhList, h, reclaimFullBuffer, Trace.append] at hx
      rcases hx with hx | hx
      · subst hx; exact Nat.le_of_lt h
      · exact ih now x hx
    · simp [purgeExhList, h, Trace.append] at hx
      rcases hx with hx | hx
      · subst hx; exact hw _
      · exact ih _ x hx

/-- Every sleep performed by the exhaustive purge loop targets the deadline
of some buffer of the delay list. -/
theorem purgeExhList_sleeps (timeout : Nat) (wake : Nat → Nat) (now : Nat)
    (dl : List DelayBuffer) :
    ∀ d ∈ (purgeExhList timeout wake now dl).2.2.sleeps,
      ∃ b ∈ dl, d = b.timestamp + timeout := by
  induction dl generalizing now with
  | nil => intro d hd; simp [purgeExhList, Trace.empty] at hd
  | cons b rest ih =>
    intro d hd
    by_cases h : b.timestamp + timeout < now
    · simp [purgeExhList, h, reclaimFullBuffer, Trace.append] at hd
      obtain ⟨c, hc, hcd⟩ := ih now d hd
      exact ⟨c, List.mem_cons_of_mem _ hc, hcd⟩
    · simp [purgeExhList, h, Trace.append] at hd
      rcases hd with hd | hd
      · exact ⟨b, List.mem_cons_self b rest, hd⟩
      · obtain ⟨c, hc, hcd⟩ := ih _ d hd
        exact ⟨c, List.mem_cons_of_mem _ hc, hcd⟩

/-- Every buffer reclaimed by the exhaustive purge loop comes from the
delay list. -/
theorem purgeExhList_reclaims_mem (timeout : Nat) (wake : Nat → Nat) (now : Nat)
    (dl : List DelayBuffer) :
    ∀ x ∈ (purgeExhList timeout wake now dl).2.2.reclaims, x.1 ∈ dl := by
  induction dl generalizing now with
  | nil => intro x hx; simp [purgeExhList, Trace.empty] at hx
  | cons b rest ih =>
    intro x hx
    by_cases h : b.timestamp + timeout < now
    · simp [purgeExhList, h, reclaimFullBuffer, Trace.append] at hx
      rcases hx with hx | hx
      · subst hx; exact List.mem_cons_self b rest
      · exact List.mem_cons_of_mem _ (ih now x hx)
    · simp [purgeExhList, h, Trace.append] at hx
      rcases hx with hx | hx
      · subst hx; exact List.mem_cons_self b rest
      · exact List.mem_cons_of_mem _ (ih _ x hx)

/-- The withholding purge leaves exactly the maximal eligible prefix
removed from the delay list, independently of the accumulator. -/
theorem purgeAndReuse_list (timeout now : Nat) (r : Option DelayBuffer)
    (dl : List DelayBuffer) :
    (purgeAndReuse timeout now r dl).2.1 = dl.dropWhile (eligible timeout now) := by
  induction dl generalizing r with
  | nil => cases r <;> rfl
  | cons b rest ih =>
    by_cases h : b.timestamp + timeout < now
    · have h' : ¬ now ≤ b.timestamp + timeout := Nat.not_le_of_lt h
      cases r <;> simp [purgeAndReuse, h', ih, eligible, h]
    · have h' : now ≤ b.timestamp + timeout := Nat.le_of_not_lt h
      cases r <;> simp [purgeAndReuse, h', eligible, h]

/-- The withholding purge withholds the accumulator if it already has one,
and otherwise the first buffer of the eligible prefix. -/
theorem purgeAndReuse_reuse (timeout now : Nat) (r : Option DelayBuffer)
    (dl : List DelayBuffer) :
    (purgeAndReuse timeout now r dl).1 =
      (r <|> (dl.takeWhile (eligible timeout now)).head?) := by
  induction dl generalizing r with
  | nil => cases r <;> rfl
  | cons b rest ih =>
    by_cases h : b.timestamp + timeout < now
    · have h' : ¬ now ≤ b.timestamp + timeout := Nat.not_le_of_lt h
      cases r <;> simp [purgeAndReuse, h', ih, eligible, h]
    · have h' : now ≤ b.timestamp + timeout := Nat.le_of_not_lt h
      cases r <;> simp [purgeAndReuse, h', eligible, h]

/-- The reclamations of the withholding purge are exactly the eligible
prefix, each stamped with the current `now_`. -/
theorem purgeAndReuse_reclaims (timeout now : Nat) (r : Option DelayBuffer)
    (dl : List DelayBuffer) :
    (purgeAndReuse timeout now r dl).2.2.reclaims =
      (dl.takeWhile (eligible timeout now)).map (fun b => (b, now)) := by
  induction dl generalizing r with
  | nil => cases r <;> rfl
  | cons b rest ih =>
    by_cases h : b.timestamp + timeout < now
    · have h' : ¬ now ≤ b.timestamp + timeout := Nat.not_le_of_lt h
      cases r <;> simp [purgeAndReuse, h', ih, eligible, h, Trace.append]
    · have h' : now ≤ b.timestamp + timeout := Nat.le_of_not_lt h
      cases r <;> simp [purgeAndReuse, h', eligible, h, Trace.empty]

/-- The withholding purge never sleeps. -/
theorem purgeAndReuse_sleeps (timeout now : Nat) (r : Option DelayBuffer)
    (dl : List DelayBuffer) :
    (purgeAndReuse timeout now r dl).2.2.sleeps = [] := by
  induction dl generalizing r with
  | nil => cases r <;> rfl
  | cons b rest ih =>
    by_cases h : now ≤ b.timestamp + timeout
    · cases r <;> simp [purgeAndReuse, h, Trace.empty]
    · cases r <;> simp [purgeAndReuse, h, ih, Trace.append]

/-- When the withholding purge starts with no accumulator and finds no
eligible head, it performs no work at all. -/
theorem purgeAndReuse_of_none (timeout now : Nat) (dl : List DelayBuffer)
    (h : (purgeAndReuse timeout now none dl).1 = none) :
    purgeAndReuse timeout now none dl = (none, dl, Trace.empty) := by
  rw [purgeAndReuse_reuse] at h
  cases dl with
  | nil => rfl
  | cons b rest =>
    by_cases hb : b.timestamp + timeout < now
    · simp [List.takeWhile_cons, eligible, hb] at h
    · have h' : now ≤ b.timestamp + timeout := Nat.le_of_not_lt hb
      simp [purgeAndReuse, h']

theorem DlInv.sublist {capacity bound : Nat} {dl dl' : List DelayBuffer}
    (hsub : dl'.Sublist dl) (h : DlInv capacity bound dl) :
    DlInv capacity bound dl' :=
  ⟨fun b hb => h.1 b (hsub.subset hb),
   List.Pairwise.sublist (hsub.map _) h.2.1,
   fun b hb => h.2.2 b (hsub.subset hb)⟩

theorem DlInv.mono {capacity bound bound' : Nat} {dl : List DelayBuffer}
    (hb : bound ≤ bound') (h : DlInv capacity bound dl) :
    DlInv capacity bound' dl :=
  ⟨h.1, h.2.1, fun b hbm => Nat.le_trans (h.2.2 b hbm) hb⟩

/-- Appending a full buffer sealed at time `t` to a delay list whose
timestamps are bounded by `t` preserves the delay-list invariant. -/
theorem DlInv.append_seal {capacity bound t : Nat} {dl : List DelayBuffer}
    {sealed : DelayBuffer} (h : DlInv capacity bound dl) (hbt : bound ≤ t)
    (hlen : sealed.elems.length = capacity) (hts : sealed.timestamp = t) :
    DlInv capacity t (dl ++ [sealed]) := by
  refine ⟨?_, ?_, ?_⟩
  · intro b hb
    rcases List.mem_append.1 hb with hb | hb
    · exact h.1 b hb
    · rw [List.mem_singleton.1 hb]; exact hlen
  · rw [List.map_append]
    refine List.pairwise_append.2 ⟨h.2.1, List.pairwise_singleton _ _, ?_⟩
    intro x hx y hy
    simp only [List.map_cons, List.map_nil, List.mem_singleton] at hy
    obtain ⟨b, hb, rfl⟩ := List.mem_map.1 hx
    rw [hy, hts]
    exact Nat.le_trans (h.2.2 b hb) hbt
  · intro b hb
    rcases List.mem_append.1 hb with hb | hb
    · exact Nat.le_trans (h.2.2 b hb) hbt
    · rw [List.mem_singleton.1 hb, hts]

/-- The delay list left by the withholding purge is a sublist of its
input. -/
theorem purgeAndReuse_list_sublist (timeout now : Nat) (r : Option DelayBuffer)
    (dl : List DelayBuffer) :
    (purgeAndReuse timeout now r dl).2.1.Sublist dl := by
  rw [purgeAndReuse_list]; exact List.dropWhile_sublist _

/-- Opportunistic `purge` preserves the inductive invariant, assuming the
clock read at entry is at least the cached `now_`. -/
theorem fullInv_purgeOpp (s : State α) (t : Nat) (hs : FullInv s)
    (ht : s.nowCache ≤ t) : FullInv (State.purgeOpp s t).1 := by
  obtain ⟨⟨h1, h2, _h3, _h4⟩, hcap, hdl⟩ := hs
  have hsub : (State.purgeOpp s t).1.delayList.Sublist s.delayList := by
    show ((purgeOppList s.timeout t s.delayList).1).Sublist s.delayList
    rw [purgeOppList_eq]; exact List.dropWhile_sublist _
  have hdl' : DlInv s.capacity t (State.purgeOpp s t).1.delayList :=
    (hdl.sublist hsub).mono ht
  exact ⟨⟨h1, h2, hdl'.1, hdl'.2.1⟩, hcap, hdl'⟩

/-- Exhaustive `purge` preserves the inductive invariant (it leaves the
delay list empty). -/
theorem fullInv_purgeExh (s : State α) (t : Nat) (wake : Nat → Nat)
    (hs : FullInv s) : FullInv (State.purgeExh s t wake).1 := by
  obtain ⟨⟨h1, h2, _h3, _h4⟩, hcap, _hdl⟩ := hs
  have hnil : (State.purgeExh s t wake).1.delayList = [] := by
    show (purgeExhList s.timeout wake t s.delayList).2.1 = []
    exact purgeExhList_list_nil _ _ _ _
  refine ⟨⟨h1, h2, ?_, ?_⟩, hcap, ?_, ?_, ?_⟩ <;> rw [hnil] <;> simp

/-- `deallocate` preserves the inductive invariant on every normal
return. -/
theorem fullInv_deallocate {s s' : State α} {e : Entry} {o : DeallocOracle}
    {tr : Trace} (hs : FullInv s) (ho : oracleValid s o)
    (h : State.deallocate s e o = DOut.ret s' tr) : FullInv s' := by
  obtain ⟨⟨_h1, h2, _h3, _h4⟩, hcap, hdl⟩ := hs
  obtain ⟨ho1, ho2, _ho3⟩ := ho
  cases hcb : s.currentBuffer with
  | none =>
    simp only [State.deallocate, hcb] at h
    exact DOut.noConfusion h
  | some cb =>
    simp only [State.deallocate, hcb] at h
    have hfill : cb.elems.length < s.capacity := by
      have := h2; rw [State.currentElems, hcb] at this; exact this
    rw [if_neg (Nat.ne_of_lt hfill)] at h
    by_cases hseal : cb.elems.length + 1 = s.capacity
    · rw [if_pos hseal] at h
      have hdl1 : DlInv s.capacity o.tSeal
          (s.delayList ++ [sealedBuffer cb e o.tSeal]) :=
        hdl.append_seal ho1 (by simp [sealedBuffer, hseal]) rfl
      have hdrop : DlInv s.capacity o.tSeal
          (purgeAndReuse s.timeout o.tSeal none
            (s.delayList ++ [sealedBuffer cb e o.tSeal])).2.1 :=
        hdl1.sublist (purgeAndReuse_list_sublist _ _ _ _)
      cases hr : (purgeAndReuse s.timeout o.tSeal none
          (s.delayList ++ [sealedBuffer cb e o.tSeal])).1 with
      | some reused =>
        rw [hr] at h
        rw [DOut.ret.injEq] at h
        obtain ⟨rfl, rfl⟩ := h
        exact ⟨⟨rfl, by simpa [State.currentElems] using hcap, hdrop.1, hdrop.2.1⟩,
               hcap, hdrop⟩
      | none =>
        rw [hr] at h
        cases hres : o.newResult with
        | ok freshId =>
          rw [hres] at h
          rw [DOut.ret.injEq] at h
          obtain ⟨rfl, rfl⟩ := h
          exact ⟨⟨rfl, by simpa [State.currentElems] using hcap, hdrop.1, hdrop.2.1⟩,
                 hcap, hdrop⟩
        | otherErr => rw [hres] at h; exact DOut.noConfusion h
        | badAlloc =>
          rw [hres] at h
          cases hrest : (purgeAndReuse s.timeout o.tSeal none
              (s.delayList ++ [sealedBuffer cb e o.tSeal])).2.1 with
          | nil => rw [hrest] at h; exact DOut.noConfusion h
          | cons oldest tail =>
            rw [hrest] at h
            have hdrop2 : DlInv s.capacity o.tRecover
                (purgeAndReuse s.timeout o.tRecover none (oldest :: tail)).2.1 :=
              ((hrest ▸ hdrop).sublist (purgeAndReuse_list_sublist _ _ _ _)).mono ho2
            cases hr2 : (purgeAndReuse s.timeout o.tRecover none (oldest :: tail)).1 with
            | some reused =>
              rw [hr2] at h
              rw [DOut.ret.injEq] at h
              obtain ⟨rfl, rfl⟩ := h
              exact ⟨⟨rfl, by simpa [State.currentElems] using hcap, hdrop2.1,
                      hdrop2.2.1⟩, hcap, hdrop2⟩
            | none => rw [hr2] at h; exact DOut.noConfusion h
    · rw [if_neg hseal] at h
      rw [DOut.ret.injEq] at h
      obtain ⟨rfl, rfl⟩ := h
      have hfill' : cb.elems.length + 1 < s.capacity :=
        Nat.lt_of_le_of_ne hfill hseal
      exact ⟨⟨rfl, by simpa [State.currentElems] using hfill', hdl.1, hdl.2.1⟩,
             hcap, hdl⟩

/-- Every reachable state satisfies the inductive invariant. -/
theorem reach_fullInv {s : State α} (h : Reach s) : FullInv s := by
  induction h with
  | init a timeout capacity tNow freshId hc =>
    exact ⟨⟨rfl, by simpa [mkAllocator, State.currentElems] using hc, by simp [mkAllocator],
            by simp [mkAllocator]⟩, hc, by simp [mkAllocator, DlInv]⟩
  | allocStep n _ ih => exact ih
  | constructStep p _ ih => exact ih
  | destroyStep p _ ih => exact ih
  | deallocStep _ ho heq ih => exact fullInv_deallocate ih ho heq
  | purgeOppStep _ ht ih => exact fullInv_purgeOpp _ _ ih ht
  | purgeExhStep _ _ _ ih => exact fullInv_purgeExh _ _ _ ih

/-- Opportunistic purge reclaims only strictly past the deadline: each
reclamation stamp exceeds the buffer's `timestamp + timeout`. -/
theorem purgeOppList_reclaim_lt (timeout now : Nat) (dl : List DelayBuffer) :
    ∀ x ∈ (purgeOppList timeout now dl).2.reclaims,
      x.1.timestamp + timeout < x.2 := by
  intro x hx
  rw [purgeOppList_eq] at hx
  obtain ⟨b, hb, rfl⟩ := List.mem_map.1 hx
  simpa [eligible] using List.mem_takeWhile_imp hb

/-- The withholding purge reclaims only strictly past the deadline. -/
theorem purgeAndReuse_reclaim_lt (timeout now : Nat) (r : Option DelayBuffer)
    (dl : List DelayBuffer) :
    ∀ x ∈ (purgeAndReuse timeout now r dl).2.2.reclaims,
      x.1.timestamp + timeout < x.2 := by
  intro x hx
  rw [purgeAndReuse_reclaims] at hx
  obtain ⟨b, hb, rfl⟩ := List.mem_map.1 hx
  simpa [eligible] using List.mem_takeWhile_imp hb

/-- Every reclamation performed during a normal return of `deallocate` is
stamped strictly past the buffer's deadline: both the recycling purge and
the post-`bad_alloc` recovery purge use the strict admission check. -/
theorem deallocate_reclaim_lt {s : State α} {e : Entry} {o : DeallocOracle}
    {s' : State α} {tr : Trace} (h : State.deallocate s e o = DOut.ret s' tr) :
    ∀ x ∈ tr.reclaims, x.1.timestamp + s.timeout < x.2 := by
  cases hcb : s.currentBuffer with
  | none =>
    simp only [State.deallocate, hcb] at h
    exact DOut.noConfusion h
  | some cb =>
    simp only [State.deallocate, hcb] at h
    by_cases hfull : cb.elems.length = s.capacity
    · rw [if_pos hfull] at h; exact DOut.noConfusion h
    · rw [if_neg hfull] at h
      by_cases hseal : cb.elems.length + 1 = s.capacity
      · rw [if_pos hseal] at h
        cases hr : (purgeAndReuse s.timeout o.tSeal none
            (s.delayList ++ [sealedBuffer cb e o.tSeal])).1 with
        | some reused =>
          rw [hr] at h
          rw [DOut.ret.injEq] at h
          obtain ⟨rfl, rfl⟩ := h
          exact purgeAndReuse_reclaim_lt _ _ _ _
        | none =>
          rw [hr] at h
          cases hres : o.newResult with
          | ok freshId =>
            rw [hres] at h
            rw [DOut.ret.injEq] at h
            obtain ⟨rfl, rfl⟩ := h
            exact purgeAndReuse_reclaim_lt _ _ _ _
          | otherErr => rw [hres] at h; exact DOut.noConfusion h
          | badAlloc =>
            rw [hres] at h
            cases hrest : (purgeAndReuse s.timeout o.tSeal none
                (s.delayList ++ [sealedBuffer cb e o.tSeal])).2.1 with
            | nil => rw [hrest] at h; exact DOut.noConfusion h
            | cons oldest tail =>
              rw [hrest] at h
              cases hr2 : (purgeAndReuse s.timeout o.tRecover none
                  (oldest :: tail)).1 with
              | some reused =>
                rw [hr2] at h
                rw [DOut.ret.injEq] at h
                obtain ⟨rfl, rfl⟩ := h
                intro x hx
                simp only [Trace.append] at hx
                rcases List.mem_append.1 hx with hx | hx
                · exact purgeAndReuse_reclaim_lt _ _ _ _ x hx
                · simp only [List.nil_append] at hx
                  exact purgeAndReuse_reclaim_lt _ _ _ _ x hx
              | none => rw [hr2] at h; exact DOut.noConfusion h
      · rw [if_neg hseal] at h
        rw [DOut.ret.injEq] at h
        obtain ⟨rfl, rfl⟩ := h
        intro x hx
        simp [Trace.empty] at hx

/-- Every reclamation performed by the destructor is stamped at or after
the buffer's deadline: the delay list goes through the exhaustive purge,
and the non-empty current buffer is stamped at destruction time and
reclaimed after a sleep until its deadline. -/
theorem destructor_reclaim_le (s : State α) (t0 t1 : Nat) (wake : Nat → Nat)
    (hw : wakeValid wake) :
    ∀ x ∈ (State.destructor s t0 t1 wake).reclaims,
      x.1.timestamp + s.timeout ≤ x.2 := by
  intro x hx
  cases hcb : s.currentBuffer with
  | none => simp [State.destructor, hcb, Trace.empty] at hx
  | some cb =>
    simp only [State.destructor, hcb] at hx
    by_cases hne : cb.elems.length = 0
    · simp only [hne, ne_eq, not_true_eq_false, if_false, Trace.append,
        List.mem_append] at hx
      rcases hx with hx | hx
      · exact purgeExhList_reclaim_le _ _ hw _ _ x hx
      · simp at hx
    · simp only [ne_eq, hne, not_false_eq_true, if_true,
        Nat.le_add_right, Trace.append, List.mem_append] at hx
      rcases hx with hx | hx
      · exact purgeExhList_reclaim_le _ _ hw _ _ x hx
      · simp only [List.mem_singleton] at hx
        subst hx
        exact hw _

/-- The head remaining after `dropWhile` does not satisfy the predicate. -/
theorem head_dropWhile_false {β : Type} (p : β → Bool) (l : List β) (b : β)
    (h : (l.dropWhile p).head? = some b) : p b = false := by
  induction l with
  | nil => simp [List.dropWhile] at h
  | cons a l ih =>
    by_cases hp : p a
    · rw [List.dropWhile_cons, if_pos hp] at h
      exact ih h
    · rw [List.dropWhile_cons, if_neg hp] at h
      simp only [List.head?_cons, Option.some.injEq] at h
      subst h
      exact Bool.not_eq_true _ |>.mp hp

/-- C8: `operator==` returns true exactly when the wrapped underlying
allocators compare equal and the timeouts (already cast to the clock's
duration) are equal; the delay-buffer capacity of either side does not
participate; and `operator!=` returns exactly the negation of
`operator==`. -/
theorem allocator_equality_spec (aeq : α → α → Bool) (a b : State α) :
    (State.eqOp aeq a b = true
      ↔ (a.timeout = b.timeout ∧ aeq a.alloc b.alloc = true))
    ∧ State.neOp aeq a b = !(State.eqOp aeq a b)
    ∧ ∀ c₁ c₂ : Nat,
        State.eqOp aeq { a with capacity := c₁ } { b with capacity := c₂ }
          = State.eqOp aeq a b := by
  refine ⟨?_, rfl, fun c₁ c₂ => rfl⟩
  simp [State.eqOp]

/-- C7: a copy-constructed allocator (the converting copy constructor has
the same member-initializer list, and the plain copy constructor delegates
to it) starts with an empty delay list and a freshly allocated current
buffer with fill 0; it copies the wrapped allocator, the timeout and the
capacity; and since the fresh storage is distinct from every storage of the
source, it shares no buffer (hence no entry) with the source.  The copy
constructor only reads its source, which the pure embedding reflects, so
the source's delay list, current buffer and fill are unchanged. -/
theorem copy_ctor_fresh_state (s : State α) (tNow freshId : Nat)
    (hf : freshId ∉ State.bufIds s) :
    (State.copyCtor s tNow freshId).delayList = []
    ∧ State.currentElems (State.copyCtor s tNow freshId) = []
    ∧ (State.copyCtor s tNow freshId).currentBuffer.isSome = true
    ∧ (State.copyCtor s tNow freshId).alloc = s.alloc
    ∧ (State.copyCtor s tNow freshId).timeout = s.timeout
    ∧ (State.copyCtor s tNow freshId).capacity = s.capacity
    ∧ ∀ i ∈ State.bufIds (State.copyCtor s tNow freshId),
        i ∉ State.bufIds s := by
  refine ⟨rfl, rfl, rfl, rfl, rfl, rfl, ?_⟩
  intro i hi
  have hi' : i = freshId := by
    simpa [State.copyCtor, State.bufIds] using hi
  subst hi'
  exact hf

/-- Witness for C7: a source with one entry in its current buffer and one
sealed buffer on the delay list. -/
theorem copy_ctor_fresh_state_witness :
    State.currentElems (State.copyCtor
      (⟨3, 10, 2, 0, some ⟨1, 0, [⟨5, 1⟩]⟩, [⟨2, 0, [⟨6, 1⟩, ⟨7, 1⟩]⟩]⟩
        : State Nat) 4 9) = []
    ∧ ∀ i ∈ State.bufIds (State.copyCtor
        (⟨3, 10, 2, 0, some ⟨1, 0, [⟨5, 1⟩]⟩, [⟨2, 0, [⟨6, 1⟩, ⟨7, 1⟩]⟩]⟩
          : State Nat) 4 9),
        i ∉ State.bufIds
          (⟨3, 10, 2, 0, some ⟨1, 0, [⟨5, 1⟩]⟩, [⟨2, 0, [⟨6, 1⟩, ⟨7, 1⟩]⟩]⟩
            : State Nat) :=
  ⟨(copy_ctor_fresh_state _ 4 9 (by decide)).2.1,
   (copy_ctor_fresh_state _ 4 9 (by decide)).2.2.2.2.2.2⟩

/-- C9: on a non-moved-from allocator whose delay list is empty and whose
current buffer is empty, the destructor runs no entry destructor, performs
no underlying deallocation of entries, and does not sleep: it only returns
the current buffer's storage to the byte allocator. -/
theorem dtor_empty_state_only_frees (s : State α) (cb : DelayBuffer)
    (t0 t1 : Nat) (wake : Nat → Nat) (hcb : s.currentBuffer = some cb)
    (hdl : s.delayList = []) (he : cb.elems = []) :
    State.destructor s t0 t1 wake = Trace.mk [] [] [cb.id] := by
  simp [State.destructor, hcb, hdl, he, purgeExhList, Trace.append, Trace.empty]

/-- Witness for C9 at a concrete empty allocator. -/
theorem dtor_empty_state_only_frees_witness :
    State.destructor (⟨0, 5, 3, 7, some ⟨4, 0, []⟩, []⟩ : State Nat) 9 11
      (fun d => d) = Trace.mk [] [] [4] :=
  dtor_empty_state_only_frees _ ⟨4, 0, []⟩ 9 11 (fun d => d) rfl rfl rfl

/-- C10: when `buffer_new` signals an error other than `std::bad_alloc`
while `deallocate` replaces a just-sealed buffer (the recycling purge
having found no reusable buffer), the error propagates out of `deallocate`
uncaught — the catch clause names only `std::bad_alloc` — and the blocking
recovery path never runs: no sleep, no reclamation, no buffer free has
happened. -/
theorem non_bad_alloc_escapes (s : State α) (cb : DelayBuffer) (e : Entry)
    (o : DeallocOracle) (hcb : s.currentBuffer = some cb)
    (hseal : cb.elems.length + 1 = s.capacity)
    (hnone : (purgeAndReuse s.timeout o.tSeal none
      (s.delayList ++ [sealedBuffer cb e o.tSeal])).1 = none)
    (herr : o.newResult = AllocResult.otherErr) :
    State.deallocate s e o = DOut.thrown Trace.empty := by
  have hfull : ¬ cb.elems.length = s.capacity := by omega
  have hpr := purgeAndReuse_of_none s.timeout o.tSeal
    (s.delayList ++ [sealedBuffer cb e o.tSeal]) hnone
  simp only [State.deallocate, hcb, if_neg hfull, if_pos hseal, hpr, herr]

/-- Witness for C10: capacity 1, empty delay list, sealing at time 5 with
no eligible head. -/
theorem non_bad_alloc_escapes_witness :
    State.deallocate (⟨0, 1, 1, 5, some ⟨1, 0, []⟩, []⟩ : State Nat) ⟨7, 1⟩
      ⟨5, AllocResult.otherErr, 9⟩ = DOut.thrown Trace.empty :=
  non_bad_alloc_escapes _ ⟨1, 0, []⟩ ⟨7, 1⟩ _ rfl (by decide) (by decide) rfl

/-- C6: `purge`, in both flavors, leaves the current buffer pointer (and
hence its fill level) unchanged, and never destroys an entry that sits in
the current (unsealed) buffer and not in any delay-list buffer. -/
theorem purge_leaves_current_buffer (s : State α) (t : Nat)
    (wake : Nat → Nat) (e : Entry) (_he : e ∈ State.currentElems s)
    (hd : ∀ b ∈ s.delayList, e ∉ b.elems) :
    (State.purgeOpp s t).1.currentBuffer = s.currentBuffer
    ∧ (State.purgeExh s t wake).1.currentBuffer = s.currentBuffer
    ∧ e ∉ destroyedEntries (State.purgeOpp s t).2
    ∧ e ∉ destroyedEntries (State.purgeExh s t wake).2 := by
  refine ⟨rfl, rfl, ?_, ?_⟩
  · intro hmem
    obtain ⟨x, hx, hex⟩ := List.mem_flatMap.1 hmem
    have hx' : x ∈ (purgeOppList s.timeout t s.delayList).2.reclaims := hx
    rw [purgeOppList_eq] at hx'
    obtain ⟨b, hb, rfl⟩ := List.mem_map.1 hx'
    exact hd b ((List.takeWhile_sublist _).subset hb) hex
  · intro hmem
    obtain ⟨x, hx, hex⟩ := List.mem_flatMap.1 hmem
    exact hd x.1 (purgeExhList_reclaims_mem s.timeout wake t s.delayList x hx) hex

/-- Witness for C6: one entry in the current buffer, a different entry in
a sealed buffer whose deadline has long passed. -/
theorem purge_leaves_current_buffer_witness :
    (State.purgeOpp (⟨0, 1, 1, 0, some ⟨3, 0, [⟨9, 1⟩]⟩, [⟨4, 0, [⟨8, 1⟩]⟩]⟩
        : State Nat) 10).1.currentBuffer
      = (⟨0, 1, 1, 0, some ⟨3, 0, [⟨9, 1⟩]⟩, [⟨4, 0, [⟨8, 1⟩]⟩]⟩
        : State Nat).currentBuffer
    ∧ (State.purgeExh (⟨0, 1, 1, 0, some ⟨3, 0, [⟨9, 1⟩]⟩, [⟨4, 0, [⟨8, 1⟩]⟩]⟩
        : State Nat) 10 (fun d => d)).1.currentBuffer
      = (⟨0, 1, 1, 0, some ⟨3, 0, [⟨9, 1⟩]⟩, [⟨4, 0, [⟨8, 1⟩]⟩]⟩
        : State Nat).currentBuffer
    ∧ (⟨9, 1⟩ : Entry) ∉ destroyedEntries
        (State.purgeOpp (⟨0, 1, 1, 0, some ⟨3, 0, [⟨9, 1⟩]⟩,
          [⟨4, 0, [⟨8, 1⟩]⟩]⟩ : State Nat) 10).2
    ∧ (⟨9, 1⟩ : Entry) ∉ destroyedEntries
        (State.purgeExh (⟨0, 1, 1, 0, some ⟨3, 0, [⟨9, 1⟩]⟩,
          [⟨4, 0, [⟨8, 1⟩]⟩]⟩ : State Nat) 10 (fun d => d)).2 :=
  purge_leaves_current_buffer _ 10 (fun d => d) ⟨9, 1⟩ (by decide) (by decide)

/-- C2: opportunistic `purge` reclaims exactly the heads whose deadline the
refreshed `now` has strictly passed (each stamped at that `now` and freed)
and stops at the first other head, so that when it returns the delay list
is empty or its head's deadline is at least the time observed at entry;
exhaustive `purge` leaves the delay list empty and every sleep it performs
targets the deadline of a delay-list buffer. -/
theorem purge_flavor_spec (s : State α) (t : Nat) (wake : Nat → Nat) :
    ((State.purgeOpp s t).1.delayList
        = s.delayList.dropWhile (eligible s.timeout t)
      ∧ (State.purgeOpp s t).2.reclaims
        = (s.delayList.takeWhile (eligible s.timeout t)).map (fun b => (b, t)))
    ∧ (∀ b, (State.purgeOpp s t).1.delayList.head? = some b →
        t ≤ b.timestamp + s.timeout)
    ∧ (State.purgeExh s t wake).1.delayList = []
    ∧ ∀ d ∈ (State.purgeExh s t wake).2.sleeps,
        ∃ b ∈ s.delayList, d = b.timestamp + s.timeout := by
  have hopp : (State.purgeOpp s t).1.delayList
      = s.delayList.dropWhile (eligible s.timeout t) := by
    show (purgeOppList s.timeout t s.delayList).1 = _
    rw [purgeOppList_eq]
  refine ⟨⟨hopp, ?_⟩, ?_, ?_, ?_⟩
  · show (purgeOppList s.timeout t s.delayList).2.reclaims = _
    rw [purgeOppList_eq]
  · intro b hb
    rw [hopp] at hb
    have := head_dropWhile_false _ _ _ hb
    have hlt : ¬ b.timestamp + s.timeout < t := by
      simpa [eligible] using this
    exact Nat.le_of_not_lt hlt
  · exact purgeExhList_list_nil _ _ _ _
  · exact purgeExhList_sleeps _ _ _ _

/-- Witness for C2: timeout 2, entry time 10, heads sealed at 1 and 9; the
first is reclaimed, the second remains with deadline 11 ≥ 10, and the
exhaustive flavor's only sleep targets deadline 11. -/
theorem purge_flavor_spec_witness :
    (10 : Nat) ≤ (⟨1, 9, [⟨8, 1⟩]⟩ : DelayBuffer).timestamp + 2
    ∧ ∃ b ∈ [(⟨0, 1, [⟨7, 1⟩]⟩ : DelayBuffer), ⟨1, 9, [⟨8, 1⟩]⟩],
        (11 : Nat) = b.timestamp + 2 :=
  ⟨(purge_flavor_spec (⟨0, 2, 1, 0, some ⟨5, 0, []⟩,
      [⟨0, 1, [⟨7, 1⟩]⟩, ⟨1, 9, [⟨8, 1⟩]⟩]⟩ : State Nat) 10
      (fun d => d)).2.1 ⟨1, 9, [⟨8, 1⟩]⟩ (by decide),
   (purge_flavor_spec (⟨0, 2, 1, 0, some ⟨5, 0, []⟩,
      [⟨0, 1, [⟨7, 1⟩]⟩, ⟨1, 9, [⟨8, 1⟩]⟩]⟩ : State Nat) 10
      (fun d => d)).2.2.2 11 (by decide)⟩

/-- C5: the claimed state invariant — current buffer non-null with fill in
`[0, capacity)`, every delay-list buffer full, sealing timestamps
non-decreasing from head to tail — holds after construction and is
preserved by every public operation that returns normally on a
non-moved-from allocator: it holds in every reachable state. -/
theorem public_ops_preserve_invariant {s : State α} (h : Reach s) :
    ClaimedInv s :=
  (reach_fullInv h).1

/-- Witness for C5: the state after constructing with capacity 1 and one
`deallocate` that seals the buffer and allocates a fresh one. -/
theorem public_ops_preserve_invariant_witness :
    ClaimedInv (⟨0, 5, 1, 3, some ⟨9, 0, []⟩, [⟨1, 3, [⟨7, 1⟩]⟩]⟩
      : State Nat) :=
  public_ops_preserve_invariant
    (@Reach.deallocStep Nat (mkAllocator 0 5 1 0 1)
      ⟨0, 5, 1, 3, some ⟨9, 0, []⟩, [⟨1, 3, [⟨7, 1⟩]⟩]⟩ ⟨7, 1⟩
      ⟨3, AllocResult.ok 9, 8⟩ Trace.empty
      (Reach.init 0 5 1 0 1 (by decide))
      ⟨by decide, by decide, by decide⟩ (by decide))

/-- C1 (amended): every reclamation is stamped at or after the reclaimed
buffer's sealing timestamp plus the timeout.  Reclamations admitted by the
strict `now_ > deadline` check — all of opportunistic `purge` and the
withholding purges run by `deallocate`, including its recovery path — are
stamped strictly after the deadline; reclamations that directly follow a
sleep — exhaustive `purge`'s ineligible-head branch and the destructor's
handling of the current buffer — are guaranteed only at-or-after, with
equality realizable because `sleep_until(d)` may return with the clock
exactly at `d`. -/
theorem reclaim_time_bounds (timeout now : Nat) (wake : Nat → Nat)
    (hw : wakeValid wake) (dl : List DelayBuffer) (r : Option DelayBuffer)
    (s : State α) (e : Entry) (o : DeallocOracle) (t0 t1 : Nat) :
    (∀ x ∈ (purgeOppList timeout now dl).2.reclaims,
        x.1.timestamp + timeout < x.2)
    ∧ (∀ x ∈ (purgeAndReuse timeout now r dl).2.2.reclaims,
        x.1.timestamp + timeout < x.2)
    ∧ (∀ s' tr, State.deallocate s e o = DOut.ret s' tr →
        ∀ x ∈ tr.reclaims, x.1.timestamp + s.timeout < x.2)
    ∧ (∀ x ∈ (purgeExhList timeout wake now dl).2.2.reclaims,
        x.1.timestamp + timeout ≤ x.2)
    ∧ (∀ x ∈ (State.destructor s t0 t1 wake).reclaims,
        x.1.timestamp + s.timeout ≤ x.2) :=
  ⟨purgeOppList_reclaim_lt timeout now dl,
   purgeAndReuse_reclaim_lt timeout now r dl,
   fun _s' _tr h => deallocate_reclaim_lt h,
   purgeExhList_reclaim_le timeout wake hw now dl,
   destructor_reclaim_le s t0 t1 wake hw⟩

/-- Witness for C1's amended bounds: a buffer sealed at 0 with timeout 1 is
reclaimed by exhaustive purge stamped at its deadline 1 (at-or-after), and
a buffer sealed at 1 with timeout 2 is reclaimed by opportunistic purge at
time 10, strictly past its deadline. -/
theorem reclaim_time_bounds_witness :
    (⟨0, 0, [⟨0, 1⟩]⟩ : DelayBuffer).timestamp + 1 ≤ 1
    ∧ (⟨3, 1, [⟨2, 1⟩]⟩ : DelayBuffer).timestamp + 2 < 10 :=
  ⟨(reclaim_time_bounds 1 0 (fun d => d) (fun d => Nat.le_refl d)
      [⟨0, 0, [⟨0, 1⟩]⟩] none (⟨0, 1, 1, 0, some ⟨1, 0, []⟩, []⟩ : State Nat)
      ⟨9, 1⟩ ⟨0, AllocResult.ok 2, 0⟩ 0 0).2.2.2.1
      (⟨0, 0, [⟨0, 1⟩]⟩, 1) (by decide),
   (reclaim_time_bounds 2 10 (fun d => d) (fun d => Nat.le_refl d)
      [⟨3, 1, [⟨2, 1⟩]⟩] none (⟨0, 1, 1, 0, some ⟨1, 0, []⟩, []⟩ : State Nat)
      ⟨9, 1⟩ ⟨0, AllocResult.ok 2, 0⟩ 0 0).1
      (⟨3, 1, [⟨2, 1⟩]⟩, 10) (by decide)⟩

/-- C1 counterexample: with timeout 1 and a buffer sealed at time 0 holding
one entry, exhaustive purge entered at time 0 with a valid wake function
that returns exactly at each deadline reclaims the entry stamped exactly at
`timestamp + timeout = 1` — not strictly later, refuting the claim that
every entry's destructor runs strictly more than `timeout` after its
buffer was sealed. -/
theorem exhaustive_reclaim_at_deadline :
    wakeValid (fun d => d)
    ∧ ¬ (∀ x ∈ (purgeExhList 1 (fun d => d) 0
          [(⟨0, 0, [⟨0, 1⟩]⟩ : DelayBuffer)]).2.2.reclaims,
          x.1.timestamp + 1 < x.2) :=
  ⟨fun d => Nat.le_refl d, by decide⟩

/-- C3: at the failing input — capacity 1, timeout 1, empty delay list,
`deallocate` sealing the buffer at time 5, `buffer_new` throwing
`std::bad_alloc`, and the clock read after `sleep_until(6)` returning
exactly the deadline 6, a schedule `sleep_until` permits — the rerun
withholding purge finds `now_ = 6 ≤ 6 = deadline` and yields no buffer, so
the assertion `current_buffer_ != nullptr` fails (with assertions disabled,
`deallocate` would return with a null current buffer) instead of the
recovery necessarily producing a recycled buffer. -/
theorem recovery_fails_at_exact_deadline :
    oracleValid (⟨0, 1, 1, 5, some ⟨1, 0, []⟩, []⟩ : State Nat)
      ⟨5, AllocResult.badAlloc, 6⟩
    ∧ State.deallocate (⟨0, 1, 1, 5, some ⟨1, 0, []⟩, []⟩ : State Nat)
        ⟨7, 1⟩ ⟨5, AllocResult.badAlloc, 6⟩ = DOut.assertFail :=
  ⟨⟨by decide, by decide, by decide⟩, by decide⟩

/-- C4: the element count `buffer_delete` hands to the byte-rebound
allocator's `deallocate` (`buffer_capacity_`) never equals the byte count
`buffer_new` requested from its `allocate` (`sizeof(DelayBuffer) +
buffer_capacity_ * sizeof(DelayBufferElement)`), whatever the positive
header and element sizes: the storage is returned with a mismatched
count. -/
theorem buffer_delete_size_mismatch (headerSize entrySize capacity : Nat)
    (hh : 1 ≤ headerSize) (he : 1 ≤ entrySize) :
    bufferDeleteByteCount capacity
      ≠ bufferNewByteCount headerSize entrySize capacity := by
  have hc : capacity ≤ capacity * entrySize :=
    Nat.le_mul_of_pos_right capacity he
  unfold bufferDeleteByteCount bufferNewByteCount
  omega

/-- Witness for C4 with `sizeof(DelayBuffer) = 16` and
`sizeof(DelayBufferElement) = 16` (a typical LP64 platform) and capacity
1: `buffer_delete` frees 1, `buffer_new` allocated 32. -/
theorem buffer_delete_size_mismatch_witness :
    bufferDeleteByteCount 1 ≠ bufferNewByteCount 16 16 1 :=
  buffer_delete_size_mismatch 16 16 1 (by decide) (by decide)

end DeferredReclamation
